import Mathlib

/-
Shallow embedding of the zombie-simulation game logic of the repository
(the second, authoritative copy of the game code inside src/unnamed/part_002:
types at lines 841-867, constants at 869-880, game logic at 1002-1143, and
the batch evaluator runTestCase at 1628-1645).

Modelling conventions:
- JavaScript Number arithmetic is modelled as exact real arithmetic.  All
  coordinates in reachable states are integers (the initial levels use
  integer coordinates and moveTowards floors both coordinates), so points
  are modelled as pairs of Int.
- distance(x1,y1,x2,y2) = sqrt((x2-x1)^2 + (y2-y1)^2) is only ever used in
  comparisons against nonnegative quantities, so comparisons are modelled
  exactly by comparing squared distances (distSq below).
- The division-by-sqrt followed by Math.floor inside moveTowards is modelled
  by the executable integer function floorDivSqrt, proved below to equal the
  real floor of r / sqrt D.
- Mutation of the freshly JSON-cloned state is modelled by pure record
  updates; JSON.parse(JSON.stringify(s)) is the structural clone
  jsonRoundTrip.
-/

namespace Xmas

structure Pt where
  x : Int
  y : Int
deriving DecidableEq, Repr

structure Human where
  id : Int
  x : Int
  y : Int
  alive : Bool
  emoji : String
deriving DecidableEq, Repr

structure Zombie where
  id : Int
  x : Int
  y : Int
  xNext : Int
  yNext : Int
  alive : Bool
deriving DecidableEq, Repr

structure GameState where
  rich : Pt
  humans : List Human
  zombies : List Zombie
  score : Int
  turn : Nat
  gameOver : Bool
  won : Bool
  message : String
deriving DecidableEq, Repr

def RICH_SPEED : Nat := 1000

def RICH_RANGE : Int := 2000

def ZOMBIE_SPEED : Nat := 400

/-- Squared Euclidean distance; distance(x1,y1,x2,y2) in the source is
sqrt of this, and every use of distance is a comparison, modelled exactly
on squares. -/
def distSq (x1 y1 x2 y2 : Int) : Int :=
  (x2 - x1) ^ 2 + (y2 - y1) ^ 2

/-- Newton iteration for the integer square root, with explicit structural
fuel so that the kernel can evaluate it (Nat.sqrt itself uses well-founded
recursion). -/
def sqrtIter (n : Nat) : Nat → Nat → Nat
  | 0, guess => guess
  | fuel + 1, guess =>
    let next := (guess + n / guess) / 2
    if next < guess then sqrtIter n fuel next else guess

/-- Kernel-evaluable integer square root, proved equal to Nat.sqrt below. -/
def isqrt (n : Nat) : Nat :=
  if n ≤ 1 then n else sqrtIter n n (n / 2)

/-- Executable floor of r / sqrt D (for D > 0), used to model
Math.floor(fromX + (toX - fromX) * speed / dist) with dist = sqrt D. -/
def floorDivSqrt (r : Int) (D : Nat) : Int :=
  let q := r.natAbs
  let m := isqrt (q * q / D)
  if 0 ≤ r then (m : Int)
  else if m * m * D = q * q then -(m : Int) else -((m : Int) + 1)

/-- moveTowards from the source: if the target is within speed, jump to the
target, otherwise advance exactly speed along the straight line towards the
target and floor both coordinates. -/
def moveTowards (fromX fromY toX toY : Int) (speed : Nat) : Pt :=
  let D := distSq fromX fromY toX toY
  if D ≤ (speed : Int) ^ 2 then ⟨toX, toY⟩
  else ⟨fromX + floorDivSqrt ((toX - fromX) * speed) D.toNat,
        fromY + floorDivSqrt ((toY - fromY) * speed) D.toNat⟩

/-- The loop of findClosestHuman: fold over the humans in list order,
keeping the closest candidate seen so far together with its (squared)
distance; only a strictly closer alive human replaces the candidate. -/
def closestLoop (zx zy : Int) : List Human → Pt × Int → Pt × Int
  | [], acc => acc
  | h :: hs, acc =>
    if h.alive = true ∧ distSq zx zy h.x h.y < acc.2 then
      closestLoop zx zy hs (⟨h.x, h.y⟩, distSq zx zy h.x h.y)
    else
      closestLoop zx zy hs acc

/-- findClosestHuman from the source: the minimum is initialised with the
distance to Rich, so Rich is the fallback target. -/
def findClosestHuman (z : Zombie) (humans : List Human) (rich : Pt) : Pt :=
  (closestLoop z.x z.y humans (⟨rich.x, rich.y⟩, distSq z.x z.y rich.x rich.y)).1

def fibs : List Nat := [1, 2, 3, 5, 8, 13, 21, 34, 55, 89, 144, 233, 377, 610, 987]

/-- fibonacci from the source: fixed lookup table, clamped at the last index. -/
def fibonacci (n : Nat) : Nat :=
  fibs.getD (min n (fibs.length - 1)) 0

/-- Pass 1 of simulateTurn, per zombie: an alive zombie moves towards its
closest target; a dead zombie is skipped (continue). -/
def moveZombie (humans : List Human) (rich : Pt) (z : Zombie) : Zombie :=
  if z.alive = true then
    let t := findClosestHuman z humans rich
    let p := moveTowards z.x z.y t.x t.y ZOMBIE_SPEED
    { z with x := p.x, y := p.y }
  else z

/-- Pass 3 of simulateTurn: traverse the zombies in order with the running
kill count k; an alive zombie within RICH_RANGE of Rich dies and contributes
base * fibonacci(k) to the score (the source increments
zombiesKilledThisTurn first and indexes fibonacci at that value minus one).
Returns the updated zombies, the score delta, and the final kill count. -/
def killZombies (rx ry : Int) (base : Int) : List Zombie → Nat → List Zombie × Int × Nat
  | [], k => ([], 0, k)
  | z :: zs, k =>
    if z.alive = true ∧ distSq rx ry z.x z.y ≤ RICH_RANGE ^ 2 then
      let rest := killZombies rx ry base zs (k + 1)
      ({ z with alive := false } :: rest.1, base * (fibonacci k : Int) + rest.2.1, rest.2.2)
    else
      let rest := killZombies rx ry base zs k
      (z :: rest.1, rest.2.1, rest.2.2)

/-- Inner loop of pass 4: one alive zombie eats every alive human within
400 units (inclusive). -/
def eatHumans (z : Zombie) (hs : List Human) : List Human :=
  if z.alive = true then
    hs.map (fun h =>
      if h.alive = true ∧ distSq z.x z.y h.x h.y ≤ 400 ^ 2 then
        { h with alive := false }
      else h)
  else hs

/-- Pass 4 of simulateTurn: every alive zombie, in order, eats the alive
humans within 400 units of its post-move position. -/
def eatPass (zs : List Zombie) (hs : List Human) : List Human :=
  zs.foldl (fun acc z => eatHumans z acc) hs

/-- Pass 5 of simulateTurn, per zombie: recompute the projected next
position of each alive zombie from the post-eat humans and the moved Rich. -/
def updateNext (humans : List Human) (rich : Pt) (z : Zombie) : Zombie :=
  if z.alive = true then
    let t := findClosestHuman z humans rich
    let p := moveTowards z.x z.y t.x t.y ZOMBIE_SPEED
    { z with xNext := p.x, yNext := p.y }
  else z

/-- JSON.parse(JSON.stringify(state)): a structural deep clone.  Every field
of GameState is JSON-representable plain data, so the round trip rebuilds
the state field by field. -/
def jsonRoundTrip (s : GameState) : GameState :=
  { rich := ⟨s.rich.x, s.rich.y⟩,
    humans := s.humans.map (fun h =>
      { id := h.id, x := h.x, y := h.y, alive := h.alive, emoji := h.emoji }),
    zombies := s.zombies.map (fun z =>
      { id := z.id, x := z.x, y := z.y, xNext := z.xNext, yNext := z.yNext,
        alive := z.alive }),
    score := s.score, turn := s.turn, gameOver := s.gameOver, won := s.won,
    message := s.message }

/-- simulateTurn from the source: clone the state, bump the turn counter,
move the zombies, move Rich, kill the zombies in range of Rich (scoring each
kill), let the surviving zombies eat humans in range, recompute projected
zombie positions, then apply the win/lose check. -/
def simulateTurn (state : GameState) (targetX targetY : Int) : GameState :=
  let s := jsonRoundTrip state
  let turn1 := s.turn + 1
  let zombies1 := s.zombies.map (moveZombie s.humans s.rich)
  let richNew := moveTowards s.rich.x s.rich.y targetX targetY RICH_SPEED
  let aliveHumans := s.humans.countP (fun h => h.alive)
  let killed := killZombies richNew.x richNew.y ((aliveHumans : Int) ^ 2 * 10) zombies1 0
  let zombies2 := killed.1
  let score2 := s.score + killed.2.1
  let humans2 := eatPass zombies2 s.humans
  let zombies3 := zombies2.map (updateNext humans2 richNew)
  let remH := humans2.countP (fun h => h.alive)
  let remZ := zombies3.countP (fun z => z.alive)
  if remZ = 0 ∧ 0 < remH then
    { rich := richNew, humans := humans2, zombies := zombies3, score := score2,
      turn := turn1, gameOver := true, won := true,
      message := "Victory! Score: " ++ toString score2 }
  else if remH = 0 then
    { rich := richNew, humans := humans2, zombies := zombies3, score := score2,
      turn := turn1, gameOver := true, won := false,
      message := "Game Over - All humans died!" }
  else
    { rich := richNew, humans := humans2, zombies := zombies3, score := score2,
      turn := turn1, gameOver := s.gameOver, won := s.won, message := s.message }

/-- The while loop of runTestCase: apply the strategy and simulateTurn until
the state is terminal or its turn counter reaches 200.  The strategy
(algorithm) is modelled as a total function from states to targets. -/
def runLoop (alg : GameState → Int × Int) (s : GameState) : GameState :=
  if s.gameOver = false ∧ s.turn < 200 then
    runLoop alg (simulateTurn s (alg s).1 (alg s).2)
  else s
termination_by 200 - s.turn
decreasing_by
  have ht : (simulateTurn s (alg s).1 (alg s).2).turn = s.turn + 1 := by
    unfold simulateTurn
    dsimp only
    split
    · rfl
    · split <;> rfl
  rename_i h
  rw [ht]
  omega

/-- runTestCase from the source: clone the initial state, run the loop, and
report the final won flag. -/
def runTestCase (alg : GameState → Int × Int) (s : GameState) : Bool :=
  (runLoop alg (jsonRoundTrip s)).won

theorem sqrtIter_eq (n : Nat) :
    ∀ fuel guess, guess ≤ fuel → sqrtIter n fuel guess = Nat.sqrt.iter n guess := by
  intro fuel
  induction fuel with
  | zero =>
    intro guess hg
    interval_cases guess
    simp [sqrtIter, Nat.sqrt.iter]
  | succ fuel ih =>
    intro guess hg
    rw [sqrtIter, Nat.sqrt.iter]
    split
    · rename_i hlt
      exact ih _ (by omega)
    · rfl

theorem isqrt_eq (n : Nat) : isqrt n = Nat.sqrt n := by
  unfold isqrt Nat.sqrt
  split
  · rfl
  · exact sqrtIter_eq n n (n / 2) (Nat.div_le_self n 2)

theorem sqrt_div_bounds (q D : Nat) (hD : 0 < D) :
    Nat.sqrt (q * q / D) * Nat.sqrt (q * q / D) * D ≤ q * q ∧
    q * q < (Nat.sqrt (q * q / D) + 1) * (Nat.sqrt (q * q / D) + 1) * D := by
  constructor
  · exact (Nat.le_div_iff_mul_le hD).1 (Nat.sqrt_le (q * q / D))
  · exact (Nat.div_lt_iff_lt_mul hD).1 (Nat.lt_succ_sqrt (q * q / D))

theorem sqrt_mul_le_of_sq (a b : Nat) (c : Real)
    (h : ((a : Real)) ^ 2 * c ≤ ((b : Real)) ^ 2) : (a : Real) * Real.sqrt c ≤ b := by
  have h1 : Real.sqrt ((a : Real) ^ 2 * c) ≤ Real.sqrt ((b : Real) ^ 2) :=
    Real.sqrt_le_sqrt h
  rwa [Real.sqrt_mul (by positivity), Real.sqrt_sq (by positivity),
    Real.sqrt_sq (by positivity)] at h1

theorem lt_mul_sqrt_of_sq (a b : Nat) (c : Real)
    (h : ((b : Real)) ^ 2 < ((a : Real)) ^ 2 * c) : (b : Real) < (a : Real) * Real.sqrt c := by
  have h1 : Real.sqrt ((b : Real) ^ 2) < Real.sqrt ((a : Real) ^ 2 * c) :=
    Real.sqrt_lt_sqrt (by positivity) h
  rwa [Real.sqrt_mul (by positivity), Real.sqrt_sq (by positivity),
    Real.sqrt_sq (by positivity)] at h1

/-- floorDivSqrt computes exactly the floor of r / sqrt D, the quantity the
source computes with floating-point division and Math.floor. -/
theorem floorDivSqrt_eq (r : Int) (D : Nat) (hD : 0 < D) :
    floorDivSqrt r D = Int.floor ((r : Real) / Real.sqrt (D : Real)) := by
  have hDR : (0 : Real) < (D : Real) := by exact_mod_cast hD
  have hsD : (0 : Real) < Real.sqrt (D : Real) := Real.sqrt_pos.2 hDR
  simp only [floorDivSqrt, isqrt_eq]
  set q := r.natAbs with hq
  set m := Nat.sqrt (q * q / D) with hm
  obtain ⟨hlo, hhi⟩ := sqrt_div_bounds q D hD
  rw [← hm] at hlo hhi
  have hloR : ((m : Real)) ^ 2 * (D : Real) ≤ ((q : Real)) ^ 2 := by
    have c1 : ((m * m * D : Nat) : Real) ≤ ((q * q : Nat) : Real) := Nat.cast_le.2 hlo
    push_cast at c1
    nlinarith [c1]
  have hhiR : ((q : Real)) ^ 2 < ((m : Real) + 1) ^ 2 * (D : Real) := by
    have c2 : ((q * q : Nat) : Real) < (((m + 1) * (m + 1) * D : Nat) : Real) :=
      Nat.cast_lt.2 hhi
    push_cast at c2
    nlinarith [c2]
  have hmq : (m : Real) * Real.sqrt (D : Real) ≤ (q : Real) :=
    sqrt_mul_le_of_sq m q (D : Real) hloR
  have hqm : (q : Real) < ((m : Real) + 1) * Real.sqrt (D : Real) := by
    have h5 := lt_mul_sqrt_of_sq (m + 1) q (D : Real)
      (by push_cast; nlinarith [hhiR])
    push_cast at h5
    linarith [h5]
  rcases le_or_lt 0 r with hr | hr
  · -- r nonnegative: q = r
    have hqi : ((q : Nat) : Int) = r := by omega
    have hqr : ((q : Real)) = (r : Real) := by exact_mod_cast hqi
    have h1 : (m : Real) ≤ (r : Real) / Real.sqrt (D : Real) := by
      rw [le_div_iff₀ hsD, ← hqr]
      exact hmq
    have h2 : (r : Real) / Real.sqrt (D : Real) < (m : Real) + 1 := by
      rw [div_lt_iff₀ hsD, ← hqr]
      linarith [hqm]
    have hfl : Int.floor ((r : Real) / Real.sqrt (D : Real)) = ((m : Nat) : Int) := by
      rw [Int.floor_eq_iff]
      constructor
      · exact_mod_cast h1
      · push_cast
        exact h2
    rw [hfl, if_pos hr]
  · -- r negative: q = -r
    have hqi : ((q : Nat) : Int) = -r := by omega
    have hqr : ((q : Real)) = -(r : Real) := by exact_mod_cast hqi
    have hrq : (r : Real) = -(q : Real) := by linarith [hqr]
    rw [if_neg (not_le.2 hr)]
    by_cases hex : m * m * D = q * q
    · -- exact square: r / sqrt D = -m
      have h1 : ((m : Real)) ^ 2 * (D : Real) = ((q : Real)) ^ 2 := by
        have c3 : ((m * m * D : Nat) : Real) = ((q * q : Nat) : Real) := by
          exact_mod_cast congrArg (fun n : Nat => (n : Real)) hex
        push_cast at c3
        nlinarith [c3]
      have h3 : (q : Real) ≤ (m : Real) * Real.sqrt (D : Real) := by
        have h4 : Real.sqrt ((q : Real) ^ 2) ≤ Real.sqrt ((m : Real) ^ 2 * (D : Real)) :=
          Real.sqrt_le_sqrt (le_of_eq h1.symm)
        rwa [Real.sqrt_mul (by positivity), Real.sqrt_sq (by positivity),
          Real.sqrt_sq (by positivity)] at h4
      have hexR : ((m : Real)) * Real.sqrt (D : Real) = (q : Real) := le_antisymm hmq h3
      have hval : (r : Real) / Real.sqrt (D : Real) = -(m : Real) := by
        rw [div_eq_iff (ne_of_gt hsD), hrq, ← hexR]
        ring
      rw [if_pos hex, hval]
      rw [show (-(m : Real)) = (((-(m : Int)) : Int) : Real) by push_cast; ring,
        Int.floor_intCast]
    · -- inexact: r / sqrt D is strictly between -(m+1) and -m
      have hlt : m * m * D < q * q := lt_of_le_of_ne hlo hex
      have hmq2 : (m : Real) * Real.sqrt (D : Real) < (q : Real) := by
        have hltR : ((m : Real)) ^ 2 * (D : Real) < ((q : Real)) ^ 2 := by
          have c4 : ((m * m * D : Nat) : Real) < ((q * q : Nat) : Real) := Nat.cast_lt.2 hlt
          push_cast at c4
          nlinarith [c4]
        have h4 : Real.sqrt ((m : Real) ^ 2 * (D : Real)) < Real.sqrt ((q : Real) ^ 2) :=
          Real.sqrt_lt_sqrt (by positivity) hltR
        rwa [Real.sqrt_mul (by positivity), Real.sqrt_sq (by positivity),
          Real.sqrt_sq (by positivity)] at h4
      have h1 : -((m : Real) + 1) ≤ (r : Real) / Real.sqrt (D : Real) := by
        rw [le_div_iff₀ hsD, hrq]
        nlinarith [hqm]
      have h2 : (r : Real) / Real.sqrt (D : Real) < -(m : Real) := by
        rw [div_lt_iff₀ hsD, hrq]
        nlinarith [hmq2]
      have hfl : Int.floor ((r : Real) / Real.sqrt (D : Real)) = -((m : Int) + 1) := by
        rw [Int.floor_eq_iff]
        constructor
        · push_cast
          exact h1
        · push_cast
          linarith [h2]
      rw [if_neg hex, hfl]

/-- Each call of simulateTurn increments the turn counter by exactly one. -/
theorem simulateTurn_turn (s : GameState) (tx ty : Int) :
    (simulateTurn s tx ty).turn = s.turn + 1 := by
  unfold simulateTurn
  dsimp only
  split
  · rfl
  · split <;> rfl


theorem distSq_nonneg (x1 y1 x2 y2 : Int) : 0 ≤ distSq x1 y1 x2 y2 := by
  unfold distSq
  positivity

theorem distSq_add (fx fy a b : Int) : distSq fx fy (fx + a) (fy + b) = a ^ 2 + b ^ 2 := by
  unfold distSq
  ring

/-- In the far branch, both coordinates of moveTowards are the floors of the
exact real point reached by travelling exactly speed towards the target. -/
theorem moveTowards_far (fx fy tx ty : Int) (s : Nat)
    (hfar : (s : Int) ^ 2 < distSq fx fy tx ty) :
    (moveTowards fx fy tx ty s).x
      = fx + Int.floor (((tx - fx : Int) : Real) *
          ((s : Real) / Real.sqrt ((distSq fx fy tx ty : Int) : Real))) ∧
    (moveTowards fx fy tx ty s).y
      = fy + Int.floor (((ty - fy : Int) : Real) *
          ((s : Real) / Real.sqrt ((distSq fx fy tx ty : Int) : Real))) := by
  have hD0 : (0 : Int) ≤ distSq fx fy tx ty := distSq_nonneg fx fy tx ty
  have hDpos : 0 < (distSq fx fy tx ty).toNat := by
    have hs2 := sq_nonneg ((s : Int))
    omega
  have hcast : (((distSq fx fy tx ty).toNat : Nat) : Real)
      = ((distSq fx fy tx ty : Int) : Real) := by
    have h1 : (((distSq fx fy tx ty).toNat : Nat) : Int) = distSq fx fy tx ty :=
      Int.toNat_of_nonneg hD0
    exact_mod_cast h1
  simp only [moveTowards]
  rw [if_neg (not_le.2 hfar)]
  constructor
  · show fx + floorDivSqrt ((tx - fx) * (s : Int)) (distSq fx fy tx ty).toNat = _
    rw [floorDivSqrt_eq _ _ hDpos, hcast]
    congr 2
    push_cast
    ring
  · show fy + floorDivSqrt ((ty - fy) * (s : Int)) (distSq fx fy tx ty).toNat = _
    rw [floorDivSqrt_eq _ _ hDpos, hcast]
    congr 2
    push_cast
    ring

theorem floor_abs_le (v : Real) : |((Int.floor v : Int) : Real)| ≤ |v| + 1 := by
  rw [abs_le]
  constructor
  · have h1 : v < (Int.floor v : Real) + 1 := Int.lt_floor_add_one v
    have h2 : -|v| ≤ v := neg_abs_le v
    linarith
  · have h1 : ((Int.floor v : Int) : Real) ≤ v := Int.floor_le v
    have h2 : v ≤ |v| := le_abs_self v
    linarith

/-- Flooring both coordinates of a vector of norm s gives a vector of norm
at most s + sqrt 2. -/
theorem floored_step_bound (vx vy s : Real) (hs : 0 ≤ s)
    (hv : vx ^ 2 + vy ^ 2 = s ^ 2) :
    ((Int.floor vx : Int) : Real) ^ 2 + ((Int.floor vy : Int) : Real) ^ 2
      ≤ (s + Real.sqrt 2) ^ 2 := by
  have h1 := floor_abs_le vx
  have h2 := floor_abs_le vy
  have hx : ((Int.floor vx : Int) : Real) ^ 2 ≤ (|vx| + 1) ^ 2 := by
    rw [← sq_abs]
    have := pow_le_pow_left (abs_nonneg ((Int.floor vx : Int) : Real)) h1 2
    exact this
  have hy : ((Int.floor vy : Int) : Real) ^ 2 ≤ (|vy| + 1) ^ 2 := by
    rw [← sq_abs]
    have := pow_le_pow_left (abs_nonneg ((Int.floor vy : Int) : Real)) h2 2
    exact this
  have hsum : |vx| + |vy| ≤ Real.sqrt 2 * s := by
    have hsq : (|vx| + |vy|) ^ 2 ≤ (Real.sqrt 2 * s) ^ 2 := by
      rw [mul_pow, Real.sq_sqrt (by norm_num : (0 : Real) ≤ 2)]
      nlinarith [sq_nonneg (|vx| - |vy|), sq_abs vx, sq_abs vy]
    calc |vx| + |vy| = Real.sqrt ((|vx| + |vy|) ^ 2) := by
          rw [Real.sqrt_sq (by positivity)]
      _ ≤ Real.sqrt ((Real.sqrt 2 * s) ^ 2) := Real.sqrt_le_sqrt hsq
      _ = Real.sqrt 2 * s := by
          rw [Real.sqrt_sq (by positivity)]
  nlinarith [hx, hy, hsum, sq_abs vx, sq_abs vy, abs_nonneg vx, abs_nonneg vy,
    Real.sq_sqrt (by norm_num : (0 : Real) ≤ 2), Real.sqrt_nonneg 2]

theorem floor_scale_between (b : Int) (t : Real) (h0 : 0 ≤ t) (h1 : t ≤ 1) :
    min 0 b ≤ Int.floor ((b : Real) * t) ∧ Int.floor ((b : Real) * t) ≤ max 0 b := by
  rcases le_or_lt 0 b with hb | hb
  · have hbR : (0 : Real) ≤ (b : Real) := by exact_mod_cast hb
    have hlo : (0 : Real) ≤ (b : Real) * t := mul_nonneg hbR h0
    have hhi : (b : Real) * t ≤ (b : Real) := by nlinarith
    constructor
    · have := Int.floor_nonneg.2 hlo
      omega
    · have h2 : Int.floor ((b : Real) * t) ≤ Int.floor ((b : Real)) := Int.floor_le_floor hhi
      rw [Int.floor_intCast] at h2
      omega
  · have hbR : (b : Real) < 0 := by exact_mod_cast hb
    have hlo : (b : Real) ≤ (b : Real) * t := by nlinarith
    have hhi : (b : Real) * t ≤ 0 := by nlinarith
    constructor
    · have h2 : Int.floor ((b : Real)) ≤ Int.floor ((b : Real) * t) := Int.floor_le_floor hlo
      rw [Int.floor_intCast] at h2
      omega
    · have h2 : Int.floor ((b : Real) * t) ≤ 0 := Int.floor_nonpos hhi
      omega


/-- C2 (amended): moveTowards never overshoots past the target in either
coordinate; its result lies within maxStep + sqrt 2 of the source in
Euclidean distance (flooring can push the exact-maxStep point out by up to
sqrt 2, so the bound maxStep alone fails, see the counterexample); and when
the target is farther than maxStep the result is the exact point at
distance maxStep along the straight line towards the target with both
coordinates floored. -/
theorem moveToward_step_bound (fx fy tx ty : Int) (s : Nat) :
    (min fx tx ≤ (moveTowards fx fy tx ty s).x ∧ (moveTowards fx fy tx ty s).x ≤ max fx tx ∧
     min fy ty ≤ (moveTowards fx fy tx ty s).y ∧ (moveTowards fx fy tx ty s).y ≤ max fy ty) ∧
    ((distSq fx fy (moveTowards fx fy tx ty s).x (moveTowards fx fy tx ty s).y : Int) : Real)
      ≤ ((s : Real) + Real.sqrt 2) ^ 2 ∧
    ((s : Int) ^ 2 < distSq fx fy tx ty →
      (moveTowards fx fy tx ty s).x
        = fx + Int.floor (((tx - fx : Int) : Real) *
            ((s : Real) / Real.sqrt ((distSq fx fy tx ty : Int) : Real))) ∧
      (moveTowards fx fy tx ty s).y
        = fy + Int.floor (((ty - fy : Int) : Real) *
            ((s : Real) / Real.sqrt ((distSq fx fy tx ty : Int) : Real)))) := by
  by_cases hfar : (s : Int) ^ 2 < distSq fx fy tx ty
  case neg =>
    -- near branch: the result is the target itself
    have hle : distSq fx fy tx ty ≤ (s : Int) ^ 2 := not_lt.1 hfar
    have hmt : moveTowards fx fy tx ty s = ⟨tx, ty⟩ := by
      simp only [moveTowards]
      rw [if_pos hle]
    rw [hmt]
    refine ⟨⟨min_le_right fx tx, le_max_right fx tx, min_le_right fy ty, le_max_right fy ty⟩,
      ?_, fun h => absurd h hfar⟩
    have hc : ((distSq fx fy tx ty : Int) : Real) ≤ ((s : Real)) ^ 2 := by
      have : (((s : Int) ^ 2 : Int) : Real) = ((s : Real)) ^ 2 := by push_cast; ring
      rw [← this]
      exact_mod_cast hle
    nlinarith [Real.sqrt_nonneg (2 : Real), Nat.cast_nonneg (α := Real) s, hc]
  case pos =>
    obtain ⟨hx, hy⟩ := moveTowards_far fx fy tx ty s hfar
    have hD0 : (0 : Int) ≤ distSq fx fy tx ty := distSq_nonneg fx fy tx ty
    have hDrpos : (0 : Real) < ((distSq fx fy tx ty : Int) : Real) := by
      have hs2 := sq_nonneg ((s : Int))
      exact_mod_cast lt_of_le_of_lt hs2 hfar
    set Dr : Real := ((distSq fx fy tx ty : Int) : Real) with hDr
    have hsqrt_pos : (0 : Real) < Real.sqrt Dr := Real.sqrt_pos.2 hDrpos
    set t : Real := (s : Real) / Real.sqrt Dr with ht
    have ht0 : 0 ≤ t := div_nonneg (Nat.cast_nonneg s) (le_of_lt hsqrt_pos)
    have ht1 : t ≤ 1 := by
      rw [ht, div_le_one hsqrt_pos]
      have h1 : ((s : Real)) ^ 2 ≤ Dr := by
        rw [hDr]
        have : (((s : Int) ^ 2 : Int) : Real) = ((s : Real)) ^ 2 := by push_cast; ring
        rw [← this]
        exact_mod_cast le_of_lt hfar
      calc (s : Real) = Real.sqrt (((s : Real)) ^ 2) := by
            rw [Real.sqrt_sq (Nat.cast_nonneg s)]
        _ ≤ Real.sqrt Dr := Real.sqrt_le_sqrt h1
    have hDr_def : ((tx - fx : Int) : Real) ^ 2 + ((ty - fy : Int) : Real) ^ 2 = Dr := by
      rw [hDr]
      unfold distSq
      push_cast
      ring
    have hvv : (((tx - fx : Int) : Real) * t) ^ 2 + (((ty - fy : Int) : Real) * t) ^ 2
        = ((s : Real)) ^ 2 := by
      have hss : Real.sqrt Dr ^ 2 = Dr := Real.sq_sqrt (le_of_lt hDrpos)
      rw [ht]
      field_simp
      push_cast at hDr_def ⊢
      linear_combination ((s : Real)) ^ 2 * hDr_def
    constructor
    · -- no overshoot, coordinatewise
      obtain ⟨hbx1, hbx2⟩ := floor_scale_between (tx - fx) t ht0 ht1
      obtain ⟨hby1, hby2⟩ := floor_scale_between (ty - fy) t ht0 ht1
      rw [hx, hy]
      omega
    constructor
    · -- Euclidean bound maxStep + sqrt 2
      rw [hx, hy, distSq_add]
      have hb := floored_step_bound (((tx - fx : Int) : Real) * t)
        (((ty - fy : Int) : Real) * t) ((s : Real)) (Nat.cast_nonneg s) hvv
      calc (((Int.floor (((tx - fx : Int) : Real) * t)) ^ 2
              + (Int.floor (((ty - fy : Int) : Real) * t)) ^ 2 : Int) : Real)
          = ((Int.floor (((tx - fx : Int) : Real) * t) : Int) : Real) ^ 2
            + ((Int.floor (((ty - fy : Int) : Real) * t) : Int) : Real) ^ 2 := by
            push_cast
            ring
        _ ≤ ((s : Real) + Real.sqrt 2) ^ 2 := hb
    · exact fun _ => ⟨hx, hy⟩


theorem closestLoop_no_improve (zx zy : Int) (hs : List Human) (acc : Pt × Int)
    (h : ∀ hh ∈ hs, hh.alive = true → acc.2 ≤ distSq zx zy hh.x hh.y) :
    closestLoop zx zy hs acc = acc := by
  induction hs with
  | nil => rfl
  | cons a tl ih =>
    rw [closestLoop]
    rw [if_neg ?hc]
    case hc =>
      rintro ⟨ha, hd⟩
      exact absurd hd (not_lt.2 (h a (List.mem_cons_self a tl) ha))
    exact ih (fun hh hm ha => h hh (List.mem_cons_of_mem a hm) ha)

theorem closestLoop_spec (zx zy : Int) (hs : List Human) :
    ∀ acc : Pt × Int, acc.2 = distSq zx zy acc.1.x acc.1.y →
    (closestLoop zx zy hs acc).2
        = distSq zx zy (closestLoop zx zy hs acc).1.x (closestLoop zx zy hs acc).1.y ∧
    (closestLoop zx zy hs acc).2 ≤ acc.2 ∧
    (∀ hh ∈ hs, hh.alive = true →
      (closestLoop zx zy hs acc).2 ≤ distSq zx zy hh.x hh.y) ∧
    (closestLoop zx zy hs acc = acc ∨
      ∃ hh ∈ hs, hh.alive = true ∧ (closestLoop zx zy hs acc).1 = ⟨hh.x, hh.y⟩ ∧
        (closestLoop zx zy hs acc).2 < acc.2) := by
  induction hs with
  | nil =>
    intro acc hacc
    exact ⟨hacc, le_refl _, by simp, Or.inl rfl⟩
  | cons a tl ih =>
    intro acc hacc
    rw [closestLoop]
    by_cases hcond : a.alive = true ∧ distSq zx zy a.x a.y < acc.2
    · rw [if_pos hcond]
      obtain ⟨h1, h2, h3, h4⟩ := ih (⟨a.x, a.y⟩, distSq zx zy a.x a.y) rfl
      refine ⟨h1, le_trans h2 (le_of_lt hcond.2), ?_, ?_⟩
      · intro hh hm ha
        rcases List.mem_cons.1 hm with he | hm2
        · rw [he]
          exact h2
        · exact h3 hh hm2 ha
      · rcases h4 with he | ⟨hh, hm, ha, hp, hlt⟩
        · right
          refine ⟨a, List.mem_cons_self a tl, hcond.1, ?_, ?_⟩
          · rw [he]
          · rw [he]
            exact hcond.2
        · right
          exact ⟨hh, List.mem_cons_of_mem a hm, ha, hp, lt_trans hlt hcond.2⟩
    · rw [if_neg hcond]
      obtain ⟨h1, h2, h3, h4⟩ := ih acc hacc
      push_neg at hcond
      refine ⟨h1, h2, ?_, ?_⟩
      · intro hh hm ha
        rcases List.mem_cons.1 hm with he | hm2
        · rw [he]
          exact le_trans h2 (hcond (he ▸ ha))
        · exact h3 hh hm2 ha
      · rcases h4 with he | ⟨hh, hm, ha, hp, hlt⟩
        · exact Or.inl he
        · exact Or.inr ⟨hh, List.mem_cons_of_mem a hm, ha, hp, hlt⟩

theorem closestLoop_first (zx zy : Int) :
    ∀ (l1 : List Human) (hh : Human) (l2 : List Human) (acc : Pt × Int),
      hh.alive = true →
      distSq zx zy hh.x hh.y < acc.2 →
      (∀ h1 ∈ l1, h1.alive = true → distSq zx zy hh.x hh.y < distSq zx zy h1.x h1.y) →
      (∀ h2 ∈ l2, h2.alive = true → distSq zx zy hh.x hh.y ≤ distSq zx zy h2.x h2.y) →
      (closestLoop zx zy (l1 ++ hh :: l2) acc).1 = ⟨hh.x, hh.y⟩ := by
  intro l1
  induction l1 with
  | nil =>
    intro hh l2 acc ha hd _ hl2
    rw [List.nil_append, closestLoop, if_pos ⟨ha, hd⟩,
      closestLoop_no_improve zx zy l2 (⟨hh.x, hh.y⟩, distSq zx zy hh.x hh.y) hl2]
  | cons a tl ih =>
    intro hh l2 acc ha hd hl1 hl2
    rw [List.cons_append, closestLoop]
    by_cases hcond : a.alive = true ∧ distSq zx zy a.x a.y < acc.2
    · rw [if_pos hcond]
      exact ih hh l2 _ ha (hl1 a (List.mem_cons_self a tl) hcond.1)
        (fun h1 hm hal => hl1 h1 (List.mem_cons_of_mem a hm) hal) hl2
    · rw [if_neg hcond]
      exact ih hh l2 acc ha hd
        (fun h1 hm hal => hl1 h1 (List.mem_cons_of_mem a hm) hal) hl2


/-- C4: findClosestHuman returns the position of the alive friendly strictly
closest to the hostile: (fallback) if no alive friendly is strictly closer
than Rich, the result is the position of Rich; (minimality) the result is at
least as close as every alive friendly and as Rich; (membership and
strictness) the result is the position of Rich or of an alive friendly
strictly closer than Rich; (first wins) the earliest alive friendly that is
strictly closer than Rich, strictly closer than every earlier alive
friendly, and at least as close as every later alive friendly, is chosen. -/
theorem nearestTarget_spec (z : Zombie) (humans : List Human) (rich : Pt) :
    ((∀ hh ∈ humans, hh.alive = true →
        distSq z.x z.y rich.x rich.y ≤ distSq z.x z.y hh.x hh.y) →
      findClosestHuman z humans rich = ⟨rich.x, rich.y⟩) ∧
    (∀ hh ∈ humans, hh.alive = true →
      distSq z.x z.y (findClosestHuman z humans rich).x (findClosestHuman z humans rich).y
        ≤ distSq z.x z.y hh.x hh.y) ∧
    (distSq z.x z.y (findClosestHuman z humans rich).x (findClosestHuman z humans rich).y
        ≤ distSq z.x z.y rich.x rich.y) ∧
    (findClosestHuman z humans rich = ⟨rich.x, rich.y⟩ ∨
      ∃ hh ∈ humans, hh.alive = true ∧ findClosestHuman z humans rich = ⟨hh.x, hh.y⟩ ∧
        distSq z.x z.y hh.x hh.y < distSq z.x z.y rich.x rich.y) ∧
    (∀ (l1 : List Human) (hh : Human) (l2 : List Human), humans = l1 ++ hh :: l2 →
      hh.alive = true →
      distSq z.x z.y hh.x hh.y < distSq z.x z.y rich.x rich.y →
      (∀ h1 ∈ l1, h1.alive = true → distSq z.x z.y hh.x hh.y < distSq z.x z.y h1.x h1.y) →
      (∀ h2 ∈ l2, h2.alive = true → distSq z.x z.y hh.x hh.y ≤ distSq z.x z.y h2.x h2.y) →
      findClosestHuman z humans rich = ⟨hh.x, hh.y⟩) := by
  obtain ⟨h1, h2, h3, h4⟩ := closestLoop_spec z.x z.y humans
    (⟨rich.x, rich.y⟩, distSq z.x z.y rich.x rich.y) rfl
  unfold findClosestHuman
  refine ⟨?_, ?_, ?_, ?_, ?_⟩
  · intro hall
    rw [closestLoop_no_improve z.x z.y humans _ hall]
  · intro hh hm ha
    rw [← h1]
    exact h3 hh hm ha
  · rw [← h1]
    exact h2
  · rcases h4 with he | ⟨hh, hm, ha, hp, hlt⟩
    · left
      rw [he]
    · right
      refine ⟨hh, hm, ha, hp, ?_⟩
      have hq := hlt
      rw [h1, hp] at hq
      exact hq
  · intro l1 hh l2 hdec ha hd hl1 hl2
    subst hdec
    exact closestLoop_first z.x z.y l1 hh l2 _ ha hd hl1 hl2

/-- Witness for nearestTarget_spec: two alive friendlies at the same
distance, the earlier one is chosen (ties keep the earlier candidate). -/
theorem nearestTarget_spec_witness :
    findClosestHuman ⟨0, 0, 0, 0, 0, true⟩
      [⟨1, 100, 0, true, ""⟩, ⟨2, 100, 0, true, ""⟩] ⟨1000, 0⟩ = ⟨100, 0⟩ :=
  (nearestTarget_spec ⟨0, 0, 0, 0, 0, true⟩
      [⟨1, 100, 0, true, ""⟩, ⟨2, 100, 0, true, ""⟩] ⟨1000, 0⟩).2.2.2.2
    [] ⟨1, 100, 0, true, ""⟩ [⟨2, 100, 0, true, ""⟩] rfl rfl (by decide)
    (by simp) (by decide)

theorem killZombies_spec (rx ry base : Int) (zs : List Zombie) :
    ∀ k : Nat,
    (killZombies rx ry base zs k).1
        = zs.map (fun z => if z.alive = true ∧ distSq rx ry z.x z.y ≤ RICH_RANGE ^ 2
            then { z with alive := false } else z) ∧
    (killZombies rx ry base zs k).2.2
        = k + zs.countP (fun z => z.alive && decide (distSq rx ry z.x z.y ≤ RICH_RANGE ^ 2)) ∧
    (killZombies rx ry base zs k).2.1
        = base * Finset.sum
            (Finset.range (zs.countP
              (fun z => z.alive && decide (distSq rx ry z.x z.y ≤ RICH_RANGE ^ 2))))
            (fun j => ((fibonacci (k + j) : Nat) : Int)) := by
  induction zs with
  | nil =>
    intro k
    refine ⟨rfl, by simp [killZombies], by simp [killZombies]⟩
  | cons z zs ih =>
    intro k
    by_cases hc : z.alive = true ∧ distSq rx ry z.x z.y ≤ RICH_RANGE ^ 2
    · have hp : (z.alive && decide (distSq rx ry z.x z.y ≤ RICH_RANGE ^ 2)) = true := by
        simp only [Bool.and_eq_true, decide_eq_true_eq]
        exact hc
      obtain ⟨ih1, ih2, ih3⟩ := ih (k + 1)
      have hunf : killZombies rx ry base (z :: zs) k
          = ({ z with alive := false } :: (killZombies rx ry base zs (k + 1)).1,
             base * ((fibonacci k : Nat) : Int) + (killZombies rx ry base zs (k + 1)).2.1,
             (killZombies rx ry base zs (k + 1)).2.2) := by
        simp only [killZombies]
        rw [if_pos hc]
      rw [hunf]
      dsimp only
      refine ⟨?_, ?_, ?_⟩
      · rw [List.map_cons, if_pos hc, ih1]
      · rw [List.countP_cons, hp, if_pos rfl, ih2]
        omega
      · rw [List.countP_cons, hp, if_pos rfl, ih3]
        rw [Finset.sum_range_succ']
        have hcong : Finset.sum
            (Finset.range (zs.countP
              (fun z => z.alive && decide (distSq rx ry z.x z.y ≤ RICH_RANGE ^ 2))))
            (fun i => ((fibonacci (k + (i + 1)) : Nat) : Int))
          = Finset.sum
            (Finset.range (zs.countP
              (fun z => z.alive && decide (distSq rx ry z.x z.y ≤ RICH_RANGE ^ 2))))
            (fun i => ((fibonacci ((k + 1) + i) : Nat) : Int)) := by
          refine Finset.sum_congr rfl (fun i _ => ?_)
          rw [show k + (i + 1) = (k + 1) + i from by omega]
        rw [hcong, Nat.add_zero, mul_add]
        exact add_comm _ _
    · have hp : ¬((z.alive && decide (distSq rx ry z.x z.y ≤ RICH_RANGE ^ 2)) = true) := by
        simp only [Bool.and_eq_true, decide_eq_true_eq]
        exact hc
      obtain ⟨ih1, ih2, ih3⟩ := ih k
      have hunf : killZombies rx ry base (z :: zs) k
          = (z :: (killZombies rx ry base zs k).1,
             (killZombies rx ry base zs k).2.1,
             (killZombies rx ry base zs k).2.2) := by
        simp only [killZombies]
        rw [if_neg hc]
      rw [hunf]
      dsimp only
      refine ⟨?_, ?_, ?_⟩
      · rw [List.map_cons, if_neg hc, ih1]
      · rw [List.countP_cons, if_neg hp, ih2, Nat.add_zero]
      · rw [List.countP_cons, if_neg hp, ih3, Nat.add_zero]

theorem killZombies_delta_nonneg (rx ry base : Int) (hbase : 0 ≤ base)
    (zs : List Zombie) : ∀ k : Nat, 0 ≤ (killZombies rx ry base zs k).2.1 := by
  induction zs with
  | nil =>
    intro k
    exact le_refl 0
  | cons z zs ih =>
    intro k
    by_cases hc : z.alive = true ∧ distSq rx ry z.x z.y ≤ RICH_RANGE ^ 2
    · have hunf : (killZombies rx ry base (z :: zs) k).2.1
          = base * ((fibonacci k : Nat) : Int) + (killZombies rx ry base zs (k + 1)).2.1 := by
        simp only [killZombies]
        rw [if_pos hc]
      rw [hunf]
      have h1 : (0 : Int) ≤ base * ((fibonacci k : Nat) : Int) :=
        mul_nonneg hbase (Int.natCast_nonneg _)
      exact add_nonneg h1 (ih (k + 1))
    · have hunf : (killZombies rx ry base (z :: zs) k).2.1
          = (killZombies rx ry base zs k).2.1 := by
        simp only [killZombies]
        rw [if_neg hc]
      rw [hunf]
      exact ih k


theorem eatHumans_length (z : Zombie) (hs : List Human) :
    (eatHumans z hs).length = hs.length := by
  unfold eatHumans
  split
  · exact List.length_map hs _
  · rfl

theorem eatPass_length (zs : List Zombie) : ∀ hs : List Human,
    (eatPass zs hs).length = hs.length := by
  induction zs with
  | nil => intro hs; rfl
  | cons z zs ih =>
    intro hs
    show (eatPass zs (eatHumans z hs)).length = hs.length
    rw [ih (eatHumans z hs), eatHumans_length]

theorem eatHumans_getElem (z : Zombie) (hs : List Human) (i : Nat) (h : Human)
    (hi : hs[i]? = some h) :
    (eatHumans z hs)[i]? = some h ∨
      ((eatHumans z hs)[i]? = some { h with alive := false } ∧ h.alive = true ∧
        z.alive = true ∧ distSq z.x z.y h.x h.y ≤ 400 ^ 2) := by
  unfold eatHumans
  split
  · rename_i hz
    rw [List.getElem?_map, hi, Option.map_some']
    by_cases hcond : h.alive = true ∧ distSq z.x z.y h.x h.y ≤ 400 ^ 2
    · right
      rw [if_pos hcond]
      exact ⟨rfl, hcond.1, hz, hcond.2⟩
    · left
      rw [if_neg hcond]
  · exact Or.inl hi

theorem eatHumans_kill (z : Zombie) (hs : List Human) (i : Nat) (h : Human)
    (hi : hs[i]? = some h) (hz : z.alive = true) (ha : h.alive = true)
    (hd : distSq z.x z.y h.x h.y ≤ 400 ^ 2) :
    (eatHumans z hs)[i]? = some { h with alive := false } := by
  unfold eatHumans
  rw [if_pos hz, List.getElem?_map, hi, Option.map_some', if_pos ⟨ha, hd⟩]

theorem eatPass_dead_frame (zs : List Zombie) : ∀ (hs : List Human) (i : Nat) (h : Human),
    hs[i]? = some h → h.alive = false → (eatPass zs hs)[i]? = some h := by
  induction zs with
  | nil => intro hs i h hi _; exact hi
  | cons z zs ih =>
    intro hs i h hi ha
    show (eatPass zs (eatHumans z hs))[i]? = some h
    have hstep : (eatHumans z hs)[i]? = some h := by
      unfold eatHumans
      split
      · rw [List.getElem?_map, hi, Option.map_some', if_neg (fun hco => by
          rw [hco.1] at ha
          exact Bool.true_eq_false.mp ha)]
      · exact hi
    exact ih (eatHumans z hs) i h hstep ha

theorem eatPass_cases (zs : List Zombie) : ∀ (hs : List Human) (i : Nat) (h : Human),
    hs[i]? = some h →
    (eatPass zs hs)[i]? = some h ∨ (eatPass zs hs)[i]? = some { h with alive := false } := by
  induction zs with
  | nil => intro hs i h hi; exact Or.inl hi
  | cons z zs ih =>
    intro hs i h hi
    show (eatPass zs (eatHumans z hs))[i]? = some h ∨ _
    rcases eatHumans_getElem z hs i h hi with h1 | ⟨h1, _, _, _⟩
    · exact ih (eatHumans z hs) i h h1
    · rcases ih (eatHumans z hs) i { h with alive := false } h1 with h2 | h2
      · exact Or.inr h2
      · exact Or.inr h2

/-- If some alive zombie in the list is within 400 units of an alive human,
the predation pass kills that human (and changes nothing else about it). -/
theorem eatPass_kills (zs : List Zombie) : ∀ (hs : List Human) (i : Nat) (h : Human),
    hs[i]? = some h → h.alive = true →
    (∃ z ∈ zs, z.alive = true ∧ distSq z.x z.y h.x h.y ≤ 400 ^ 2) →
    (eatPass zs hs)[i]? = some { h with alive := false } := by
  induction zs with
  | nil =>
    intro hs i h _ _ hw
    obtain ⟨z, hz, _⟩ := hw
    exact absurd hz (List.not_mem_nil z)
  | cons z zs ih =>
    intro hs i h hi ha hw
    show (eatPass zs (eatHumans z hs))[i]? = some { h with alive := false }
    rcases eatHumans_getElem z hs i h hi with h1 | ⟨h1, _, _, _⟩
    · -- this zombie did not kill h; the witness is either z itself or in zs
      obtain ⟨w, hwmem, hwa, hwd⟩ := hw
      rcases List.mem_cons.1 hwmem with he | hm
      · -- the witness is z: then z must have killed h, contradiction unless kill happened
        subst he
        have h2 := eatHumans_kill w hs i h hi hwa ha hwd
        rw [h1] at h2
        have h3 : h = { h with alive := false } := Option.some.inj h2
        rw [h3] at ha
        exact absurd ha (by simp)
      · exact ih (eatHumans z hs) i h h1 ha ⟨w, hm, hwa, hwd⟩
    · exact eatPass_dead_frame zs (eatHumans z hs) i { h with alive := false } h1 rfl

theorem jsonRoundTrip_eq (s : GameState) : jsonRoundTrip s = s := by
  unfold jsonRoundTrip
  have hh : ∀ hs : List Human, hs.map (fun h =>
      ({ id := h.id, x := h.x, y := h.y, alive := h.alive, emoji := h.emoji } : Human)) = hs := by
    intro hs
    induction hs with
    | nil => rfl
    | cons a tl ih => rw [List.map_cons, ih]
  have hz : ∀ zs : List Zombie, zs.map (fun z =>
      ({ id := z.id, x := z.x, y := z.y, xNext := z.xNext, yNext := z.yNext,
         alive := z.alive } : Zombie)) = zs := by
    intro zs
    induction zs with
    | nil => rfl
    | cons a tl ih => rw [List.map_cons, ih]
  rw [hh, hz]


theorem moveZombie_alive (hs : List Human) (rich : Pt) (z : Zombie) :
    (moveZombie hs rich z).alive = z.alive := by
  unfold moveZombie
  split <;> rfl

theorem moveZombie_dead (hs : List Human) (rich : Pt) (z : Zombie)
    (hz : z.alive = false) : moveZombie hs rich z = z := by
  unfold moveZombie
  rw [if_neg]
  rw [hz]
  exact Bool.false_ne_true

theorem updateNext_alive (hs : List Human) (rich : Pt) (z : Zombie) :
    (updateNext hs rich z).alive = z.alive := by
  unfold updateNext
  split <;> rfl

theorem updateNext_dead (hs : List Human) (rich : Pt) (z : Zombie)
    (hz : z.alive = false) : updateNext hs rich z = z := by
  unfold updateNext
  rw [if_neg]
  rw [hz]
  exact Bool.false_ne_true

/-- The humans of the state after simulateTurn are exactly the input humans
run through the predation pass against the moved-and-culled zombies. -/
theorem simulateTurn_humans_eq (s : GameState) (tx ty : Int) :
    (simulateTurn s tx ty).humans
      = eatPass (killZombies (moveTowards s.rich.x s.rich.y tx ty RICH_SPEED).x
          (moveTowards s.rich.x s.rich.y tx ty RICH_SPEED).y
          (((s.humans.countP (fun h => h.alive)) : Int) ^ 2 * 10)
          (s.zombies.map (moveZombie s.humans s.rich)) 0).1 s.humans := by
  simp only [simulateTurn, jsonRoundTrip_eq]
  split
  · rfl
  · split <;> rfl

/-- The score of the state after simulateTurn is exactly the input score
plus the delta of the elimination pass. -/
theorem simulateTurn_score_eq (s : GameState) (tx ty : Int) :
    (simulateTurn s tx ty).score
      = s.score + (killZombies (moveTowards s.rich.x s.rich.y tx ty RICH_SPEED).x
          (moveTowards s.rich.x s.rich.y tx ty RICH_SPEED).y
          (((s.humans.countP (fun h => h.alive)) : Int) ^ 2 * 10)
          (s.zombies.map (moveZombie s.humans s.rich)) 0).2.1 := by
  simp only [simulateTurn, jsonRoundTrip_eq]
  split
  · rfl
  · split <;> rfl

/-- The zombies of the state after simulateTurn arise from mapping one
per-zombie transformation over the input zombies; the transformation is the
identity on dead zombies and never resurrects. -/
theorem simulateTurn_zombies_eq (s : GameState) (tx ty : Int) :
    ∃ G : Zombie → Zombie,
      (simulateTurn s tx ty).zombies = s.zombies.map G ∧
      (∀ z, z.alive = false → G z = z) ∧
      (∀ z, (G z).alive = true → z.alive = true) := by
  refine ⟨fun z =>
    updateNext
      (eatPass (killZombies (moveTowards s.rich.x s.rich.y tx ty RICH_SPEED).x
          (moveTowards s.rich.x s.rich.y tx ty RICH_SPEED).y
          (((s.humans.countP (fun h => h.alive)) : Int) ^ 2 * 10)
          (s.zombies.map (moveZombie s.humans s.rich)) 0).1 s.humans)
      (moveTowards s.rich.x s.rich.y tx ty RICH_SPEED)
      (if (moveZombie s.humans s.rich z).alive = true ∧
          distSq (moveTowards s.rich.x s.rich.y tx ty RICH_SPEED).x
            (moveTowards s.rich.x s.rich.y tx ty RICH_SPEED).y
            (moveZombie s.humans s.rich z).x (moveZombie s.humans s.rich z).y
            ≤ RICH_RANGE ^ 2
       then { moveZombie s.humans s.rich z with alive := false }
       else moveZombie s.humans s.rich z), ?_, ?_, ?_⟩
  · have h1 : (simulateTurn s tx ty).zombies
        = ((killZombies (moveTowards s.rich.x s.rich.y tx ty RICH_SPEED).x
            (moveTowards s.rich.x s.rich.y tx ty RICH_SPEED).y
            (((s.humans.countP (fun h => h.alive)) : Int) ^ 2 * 10)
            (s.zombies.map (moveZombie s.humans s.rich)) 0).1).map
          (updateNext
            (eatPass (killZombies (moveTowards s.rich.x s.rich.y tx ty RICH_SPEED).x
              (moveTowards s.rich.x s.rich.y tx ty RICH_SPEED).y
              (((s.humans.countP (fun h => h.alive)) : Int) ^ 2 * 10)
              (s.zombies.map (moveZombie s.humans s.rich)) 0).1 s.humans)
            (moveTowards s.rich.x s.rich.y tx ty RICH_SPEED)) := by
      simp only [simulateTurn, jsonRoundTrip_eq]
      split
      · rfl
      · split <;> rfl
    rw [h1, (killZombies_spec _ _ _ _ 0).1, List.map_map, List.map_map]
    rfl
  · intro z hz
    dsimp only
    rw [moveZombie_dead s.humans s.rich z hz]
    rw [if_neg (fun hco => by
      rw [hz] at hco
      exact Bool.false_ne_true hco.1)]
    exact updateNext_dead _ _ z hz
  · intro z halive
    dsimp only at halive
    rw [updateNext_alive] at halive
    by_cases hco : (moveZombie s.humans s.rich z).alive = true ∧
        distSq (moveTowards s.rich.x s.rich.y tx ty RICH_SPEED).x
          (moveTowards s.rich.x s.rich.y tx ty RICH_SPEED).y
          (moveZombie s.humans s.rich z).x (moveZombie s.humans s.rich z).y
          ≤ RICH_RANGE ^ 2
    · rw [if_pos hco] at halive
      exact absurd halive (by simp)
    · rw [if_neg hco] at halive
      rw [moveZombie_alive] at halive
      exact halive


/-- C1 (amended): after a step, zero alive hostiles together with at least
one alive friendly yield gameOver with won; zero alive friendlies yield
gameOver without won.  In particular, when both counts are zero the lost
outcome takes precedence (the won branch requires at least one alive
friendly), contrary to the stated priority of won. -/
theorem terminal_check_amended (s : GameState) (tx ty : Int) :
    (((simulateTurn s tx ty).zombies.countP (fun z => z.alive) = 0 ∧
        0 < (simulateTurn s tx ty).humans.countP (fun h => h.alive)) →
      (simulateTurn s tx ty).gameOver = true ∧ (simulateTurn s tx ty).won = true) ∧
    ((simulateTurn s tx ty).humans.countP (fun h => h.alive) = 0 →
      (simulateTurn s tx ty).gameOver = true ∧ (simulateTurn s tx ty).won = false) := by
  simp only [simulateTurn, jsonRoundTrip_eq]
  split
  · rename_i hcond
    constructor
    · intro _
      exact ⟨rfl, rfl⟩
    · intro hh
      dsimp only at hh
      exact absurd hh (Nat.pos_iff_ne_zero.mp hcond.2)
  · split
    · rename_i hc1 hc2
      constructor
      · intro hcontra
        dsimp only at hcontra
        exact absurd hcontra.2 (by omega)
      · intro _
        exact ⟨rfl, rfl⟩
    · rename_i hc1 hc2
      constructor
      · intro hcontra
        dsimp only at hcontra
        exact absurd hcontra hc1
      · intro hcontra
        dsimp only at hcontra
        exact absurd hcontra hc2

/-- C1 counterexample: a state whose only hostile dies this tick while no
friendly exists ends with both alive counts zero, and the result is lost
(won = false), not won as the claim asserts. -/
theorem terminal_priority_cex :
    ((simulateTurn ⟨⟨0, 0⟩, [], [⟨0, 0, 0, 0, 0, true⟩], 0, 0, false, false, ""⟩ 0 0).zombies.countP
        (fun z => z.alive) = 0) ∧
    ((simulateTurn ⟨⟨0, 0⟩, [], [⟨0, 0, 0, 0, 0, true⟩], 0, 0, false, false, ""⟩ 0 0).humans.countP
        (fun h => h.alive) = 0) ∧
    (simulateTurn ⟨⟨0, 0⟩, [], [⟨0, 0, 0, 0, 0, true⟩], 0, 0, false, false, ""⟩ 0 0).gameOver
        = true ∧
    (simulateTurn ⟨⟨0, 0⟩, [], [⟨0, 0, 0, 0, 0, true⟩], 0, 0, false, false, ""⟩ 0 0).won
        = false := by
  decide

/-- Witness for terminal_check_amended at two concrete states: one that ends
won (hostile culled, friendly alive) and one that ends lost. -/
theorem terminal_check_amended_witness :
    ((simulateTurn ⟨⟨0, 0⟩, [⟨0, 5000, 0, true, ""⟩], [⟨0, 0, 0, 0, 0, true⟩],
        0, 0, false, false, ""⟩ 0 0).gameOver = true ∧
      (simulateTurn ⟨⟨0, 0⟩, [⟨0, 5000, 0, true, ""⟩], [⟨0, 0, 0, 0, 0, true⟩],
        0, 0, false, false, ""⟩ 0 0).won = true) ∧
    ((simulateTurn ⟨⟨0, 0⟩, [⟨0, 10, 10, false, ""⟩], [], 0, 0, false, false, ""⟩ 0 0).gameOver
        = true ∧
      (simulateTurn ⟨⟨0, 0⟩, [⟨0, 10, 10, false, ""⟩], [], 0, 0, false, false, ""⟩ 0 0).won
        = false) :=
  ⟨(terminal_check_amended ⟨⟨0, 0⟩, [⟨0, 5000, 0, true, ""⟩], [⟨0, 0, 0, 0, 0, true⟩],
      0, 0, false, false, ""⟩ 0 0).1 (by decide),
   (terminal_check_amended ⟨⟨0, 0⟩, [⟨0, 10, 10, false, ""⟩], [], 0, 0, false, false, ""⟩ 0 0).2
      (by decide)⟩

/-- C6: the score never decreases across a step: every elimination adds a
nonnegative amount (a square times 10 times a positive table entry). -/
theorem score_monotone (s : GameState) (tx ty : Int) :
    s.score ≤ (simulateTurn s tx ty).score := by
  rw [simulateTurn_score_eq]
  have h := killZombies_delta_nonneg
    (moveTowards s.rich.x s.rich.y tx ty RICH_SPEED).x
    (moveTowards s.rich.x s.rich.y tx ty RICH_SPEED).y
    (((s.humans.countP (fun h => h.alive)) : Int) ^ 2 * 10)
    (by positivity)
    (s.zombies.map (moveZombie s.humans s.rich)) 0
  omega

/-- C7: a step never resurrects: an entity (friendly or hostile) that is
not alive in the input is still not alive in the output, positionally; both
entity lists keep their lengths. -/
theorem no_resurrection (s : GameState) (tx ty : Int) (i j : Nat)
    (hu hu2 : Human) (hz hz2 : Zombie) :
    ((simulateTurn s tx ty).humans.length = s.humans.length ∧
      (simulateTurn s tx ty).zombies.length = s.zombies.length) ∧
    (s.humans[i]? = some hu → (simulateTurn s tx ty).humans[i]? = some hu2 →
      hu.alive = false → hu2.alive = false) ∧
    (s.zombies[j]? = some hz → (simulateTurn s tx ty).zombies[j]? = some hz2 →
      hz.alive = false → hz2.alive = false) := by
  obtain ⟨G, hG, hGdead, hGalive⟩ := simulateTurn_zombies_eq s tx ty
  refine ⟨⟨?_, ?_⟩, ?_, ?_⟩
  · rw [simulateTurn_humans_eq]
    exact eatPass_length _ s.humans
  · rw [hG]
    exact List.length_map _ _
  · intro h1 h2 h3
    rw [simulateTurn_humans_eq] at h2
    have h4 := eatPass_dead_frame
      (killZombies (moveTowards s.rich.x s.rich.y tx ty RICH_SPEED).x
        (moveTowards s.rich.x s.rich.y tx ty RICH_SPEED).y
        (((s.humans.countP (fun h => h.alive)) : Int) ^ 2 * 10)
        (s.zombies.map (moveZombie s.humans s.rich)) 0).1
      s.humans i hu h1 h3
    have h5 : hu = hu2 := Option.some.inj (h4.symm.trans h2)
    rw [← h5]
    exact h3
  · intro h1 h2 h3
    rw [hG, List.getElem?_map, h1, Option.map_some'] at h2
    have h4 : hz2 = G hz := (Option.some.inj h2).symm
    rw [h4, hGdead hz h3]
    exact h3

/-- Witness for no_resurrection at a concrete state containing one dead
friendly and one dead hostile. -/
theorem no_resurrection_witness :
    (⟨0, 10, 10, false, ""⟩ : Human).alive = false ∧
    (⟨0, 20, 20, 5, 5, false⟩ : Zombie).alive = false :=
  ⟨(no_resurrection ⟨⟨0, 0⟩, [⟨0, 10, 10, false, ""⟩], [⟨0, 20, 20, 5, 5, false⟩],
      3, 0, false, false, ""⟩ 0 0 0 0
      ⟨0, 10, 10, false, ""⟩ ⟨0, 10, 10, false, ""⟩
      ⟨0, 20, 20, 5, 5, false⟩ ⟨0, 20, 20, 5, 5, false⟩).2.1
      (by decide) (by decide) (by decide),
   (no_resurrection ⟨⟨0, 0⟩, [⟨0, 10, 10, false, ""⟩], [⟨0, 20, 20, 5, 5, false⟩],
      3, 0, false, false, ""⟩ 0 0 0 0
      ⟨0, 10, 10, false, ""⟩ ⟨0, 10, 10, false, ""⟩
      ⟨0, 20, 20, 5, 5, false⟩ ⟨0, 20, 20, 5, 5, false⟩).2.2
      (by decide) (by decide) (by decide)⟩

/-- C9: a hostile that is not alive in the input of a step is returned
completely unchanged (all fields): dead hostiles are skipped by every pass. -/
theorem dead_hostile_frame (s : GameState) (tx ty : Int) (j : Nat) (hz hz2 : Zombie) :
    (simulateTurn s tx ty).zombies.length = s.zombies.length ∧
    (s.zombies[j]? = some hz → (simulateTurn s tx ty).zombies[j]? = some hz2 →
      hz.alive = false → hz2 = hz) := by
  obtain ⟨G, hG, hGdead, _⟩ := simulateTurn_zombies_eq s tx ty
  constructor
  · rw [hG]
    exact List.length_map _ _
  · intro h1 h2 h3
    rw [hG, List.getElem?_map, h1, Option.map_some'] at h2
    have h4 : hz2 = G hz := (Option.some.inj h2).symm
    rw [h4, hGdead hz h3]

/-- Witness for dead_hostile_frame: a dead hostile with distinct projected
coordinates passes through a step untouched. -/
theorem dead_hostile_frame_witness :
    (⟨4, 123, 456, 7, 8, false⟩ : Zombie) = ⟨4, 123, 456, 7, 8, false⟩ :=
  (dead_hostile_frame ⟨⟨9, 9⟩, [⟨1, 30, 40, true, "y"⟩], [⟨4, 123, 456, 7, 8, false⟩],
      0, 0, false, false, ""⟩ 0 0 0
      ⟨4, 123, 456, 7, 8, false⟩ ⟨4, 123, 456, 7, 8, false⟩).2
    (by decide) (by decide) (by decide)

/-- C10: the predation radius is inclusive: an alive friendly whose squared
distance to some alive hostile is at most 400 squared (so distance exactly
400 included) is not alive after the predation pass of the step. -/
theorem predation_inclusive (zs : List Zombie) (hs : List Human) (i : Nat) (h : Human) :
    hs[i]? = some h → h.alive = true →
    (∃ z ∈ zs, z.alive = true ∧ distSq z.x z.y h.x h.y ≤ 400 ^ 2) →
    (eatPass zs hs)[i]? = some { h with alive := false } :=
  eatPass_kills zs hs i h

/-- Witness for predation_inclusive at the exact boundary: the friendly sits
exactly 400 units from the hostile and dies. -/
theorem predation_inclusive_witness :
    (eatPass [⟨0, 0, 0, 0, 0, true⟩] [⟨7, 400, 0, true, "w"⟩])[0]?
      = some ⟨7, 400, 0, false, "w"⟩ :=
  predation_inclusive [⟨0, 0, 0, 0, 0, true⟩] [⟨7, 400, 0, true, "w"⟩] 0
    ⟨7, 400, 0, true, "w"⟩ (by decide) (by decide)
    ⟨⟨0, 0, 0, 0, 0, true⟩, by decide, by decide, by decide⟩

/-- C3: the elimination pass kills exactly the alive hostiles within
RICH_RANGE of Rich, counts them, and adds to the score the fixed base
(alive friendlies squared times 10, computed before any elimination and
identical for every kill of the tick) times the sum of the fibonacci table
entries at indices 0 .. kills-1; the score of simulateTurn is the input
score plus exactly this delta. -/
theorem elimination_scoring (rx ry : Int) (aliveH : Nat) (zs : List Zombie)
    (s : GameState) (tx ty : Int) :
    (killZombies rx ry ((aliveH : Int) ^ 2 * 10) zs 0).1
        = zs.map (fun z => if z.alive = true ∧ distSq rx ry z.x z.y ≤ RICH_RANGE ^ 2
            then { z with alive := false } else z) ∧
    (killZombies rx ry ((aliveH : Int) ^ 2 * 10) zs 0).2.2
        = zs.countP (fun z => z.alive && decide (distSq rx ry z.x z.y ≤ RICH_RANGE ^ 2)) ∧
    (killZombies rx ry ((aliveH : Int) ^ 2 * 10) zs 0).2.1
        = ((aliveH : Int) ^ 2 * 10) * Finset.sum
            (Finset.range (zs.countP
              (fun z => z.alive && decide (distSq rx ry z.x z.y ≤ RICH_RANGE ^ 2))))
            (fun j => ((fibonacci j : Nat) : Int)) ∧
    (simulateTurn s tx ty).score
        = s.score + (killZombies (moveTowards s.rich.x s.rich.y tx ty RICH_SPEED).x
            (moveTowards s.rich.x s.rich.y tx ty RICH_SPEED).y
            (((s.humans.countP (fun h => h.alive)) : Int) ^ 2 * 10)
            (s.zombies.map (moveZombie s.humans s.rich)) 0).2.1 := by
  obtain ⟨h1, h2, h3⟩ := killZombies_spec rx ry ((aliveH : Int) ^ 2 * 10) zs 0
  refine ⟨h1, by rw [h2, Nat.zero_add], ?_, simulateTurn_score_eq s tx ty⟩
  rw [h3]
  refine congrArg _ (Finset.sum_congr rfl (fun j _ => ?_))
  rw [Nat.zero_add]

/-- C5: simulateTurn is a pure function of its arguments: the defensive
JSON deep clone is a faithful identity on states (so the input value is
never changed), and two calls on equal inputs give equal outputs. -/
theorem step_pure (s s2 : GameState) (tx ty tx2 ty2 : Int)
    (h1 : s = s2) (h2 : tx = tx2) (h3 : ty = ty2) :
    jsonRoundTrip s = s ∧ simulateTurn s tx ty = simulateTurn s2 tx2 ty2 := by
  subst h1
  subst h2
  subst h3
  exact ⟨jsonRoundTrip_eq s, rfl⟩

/-- Witness for step_pure at a concrete state. -/
theorem step_pure_witness :
    jsonRoundTrip ⟨⟨7000, 1500⟩, [⟨0, 8000, 8500, true, "e"⟩],
        [⟨0, 1000, 1000, 1000, 1000, true⟩], 0, 0, false, false, ""⟩
      = ⟨⟨7000, 1500⟩, [⟨0, 8000, 8500, true, "e"⟩],
        [⟨0, 1000, 1000, 1000, 1000, true⟩], 0, 0, false, false, ""⟩ ∧
    simulateTurn ⟨⟨7000, 1500⟩, [⟨0, 8000, 8500, true, "e"⟩],
        [⟨0, 1000, 1000, 1000, 1000, true⟩], 0, 0, false, false, ""⟩ 1 2
      = simulateTurn ⟨⟨7000, 1500⟩, [⟨0, 8000, 8500, true, "e"⟩],
        [⟨0, 1000, 1000, 1000, 1000, true⟩], 0, 0, false, false, ""⟩ 1 2 :=
  step_pure _ _ 1 2 1 2 rfl rfl rfl


/-- C2 counterexample: from (10,10) towards (0,0) with maxStep 3 the floored
result is (7,7), at squared distance 18 > 9 from the source: strictly
farther than maxStep in Euclidean distance. -/
theorem moveToward_bound_cex :
    moveTowards 10 10 0 0 3 = ⟨7, 7⟩ ∧
    (3 : Int) ^ 2 <
      distSq 10 10 (moveTowards 10 10 0 0 3).x (moveTowards 10 10 0 0 3).y := by
  decide

/-- Witness for moveToward_step_bound at a concrete far-branch input. -/
theorem moveToward_step_bound_witness :
    (min (0 : Int) 10 ≤ (moveTowards 0 0 10 0 3).x ∧
      (moveTowards 0 0 10 0 3).x ≤ max (0 : Int) 10 ∧
      min (0 : Int) 0 ≤ (moveTowards 0 0 10 0 3).y ∧
      (moveTowards 0 0 10 0 3).y ≤ max (0 : Int) 0) ∧
    ((distSq 0 0 (moveTowards 0 0 10 0 3).x (moveTowards 0 0 10 0 3).y : Int) : Real)
      ≤ (((3 : Nat) : Real) + Real.sqrt 2) ^ 2 ∧
    ((moveTowards 0 0 10 0 3).x
        = 0 + Int.floor (((10 - 0 : Int) : Real) *
            (((3 : Nat) : Real) / Real.sqrt ((distSq 0 0 10 0 : Int) : Real))) ∧
      (moveTowards 0 0 10 0 3).y
        = 0 + Int.floor (((0 - 0 : Int) : Real) *
            (((3 : Nat) : Real) / Real.sqrt ((distSq 0 0 10 0 : Int) : Real)))) :=
  ⟨(moveToward_step_bound 0 0 10 0 3).1,
   (moveToward_step_bound 0 0 10 0 3).2.1,
   (moveToward_step_bound 0 0 10 0 3).2.2 (by decide)⟩

theorem simulateTurn_won_inv (s : GameState) (tx ty : Int)
    (h : s.won = true → s.gameOver = true) :
    (simulateTurn s tx ty).won = true → (simulateTurn s tx ty).gameOver = true := by
  simp only [simulateTurn, jsonRoundTrip_eq]
  split
  · intro _
    rfl
  · split
    · intro hw
      exact absurd hw Bool.false_ne_true
    · intro hw
      exact h hw

theorem runLoop_exit (alg : GameState → Int × Int) : ∀ (n : Nat) (s : GameState),
    200 - s.turn ≤ n → (s.won = true → s.gameOver = true) →
    ((runLoop alg s).won = true → (runLoop alg s).gameOver = true) ∧
    ((runLoop alg s).gameOver = true ∨ 200 ≤ (runLoop alg s).turn) := by
  intro n
  induction n with
  | zero =>
    intro s hn hinv
    have hnc : ¬(s.gameOver = false ∧ s.turn < 200) := fun hc => absurd hc.2 (by omega)
    rw [runLoop, if_neg hnc]
    exact ⟨hinv, Or.inr (by omega)⟩
  | succ n ih =>
    intro s hn hinv
    rw [runLoop]
    by_cases hc : s.gameOver = false ∧ s.turn < 200
    · rw [if_pos hc]
      apply ih
      · rw [simulateTurn_turn]
        omega
      · exact simulateTurn_won_inv s _ _ hinv
    · rw [if_neg hc]
      refine ⟨hinv, ?_⟩
      by_cases hgo : s.gameOver = true
      · exact Or.inl hgo
      · right
        have hgof : s.gameOver = false := by
          cases hb : s.gameOver
          · rfl
          · exact absurd hb hgo
        have hnl : ¬ s.turn < 200 := fun hlt => hc ⟨hgof, hlt⟩
        omega

/-- C8: the batch evaluator repeats strategy-then-step until the state is
terminal or its turn counter reaches the 200-tick safety cap (this is the
definition of runLoop and runTestCase); whenever the loop stops on a
non-terminal state the cap has been reached and the scenario is reported as
not won (runTestCase returns false, which is also just the final won flag,
so the cap is not a distinct error outcome). -/
theorem runTestCase_cap (alg : GameState → Int × Int) (s : GameState)
    (hinv : s.won = true → s.gameOver = true) :
    ((runLoop alg s).gameOver = false →
      200 ≤ (runLoop alg s).turn ∧ runTestCase alg s = false) ∧
    runTestCase alg s = (runLoop alg s).won := by
  have h := runLoop_exit alg (200 - s.turn) s (le_refl _) hinv
  have hrt : runTestCase alg s = (runLoop alg s).won := by
    unfold runTestCase
    rw [jsonRoundTrip_eq]
  refine ⟨?_, hrt⟩
  intro hngo
  have hcap : 200 ≤ (runLoop alg s).turn := by
    rcases h.2 with hgo | hcap
    · rw [hngo] at hgo
      exact absurd hgo Bool.false_ne_true
    · exact hcap
  refine ⟨hcap, ?_⟩
  rw [hrt]
  cases hw : (runLoop alg s).won
  · rfl
  · have hgo := h.1 hw
    rw [hngo] at hgo
    exact absurd hgo Bool.false_ne_true

/-- Witness for runTestCase_cap with a constant strategy on a concrete
already-terminal scenario state. -/
theorem runTestCase_cap_witness :
    (((runLoop (fun _ => (0, 0)) ⟨⟨0, 0⟩, [], [], 0, 0, true, false, "d"⟩).gameOver = false →
        200 ≤ (runLoop (fun _ => (0, 0)) ⟨⟨0, 0⟩, [], [], 0, 0, true, false, "d"⟩).turn ∧
        runTestCase (fun _ => (0, 0)) ⟨⟨0, 0⟩, [], [], 0, 0, true, false, "d"⟩ = false) ∧
      runTestCase (fun _ => (0, 0)) ⟨⟨0, 0⟩, [], [], 0, 0, true, false, "d"⟩
        = (runLoop (fun _ => (0, 0)) ⟨⟨0, 0⟩, [], [], 0, 0, true, false, "d"⟩).won) :=
  runTestCase_cap (fun _ => (0, 0)) ⟨⟨0, 0⟩, [], [], 0, 0, true, false, "d"⟩ (by decide)

end Xmas
